import Mathlib

/-!
Verification of the Solidity compiler-version resolution logic of
`scripts/pysolc.py` (the securify repository).

Strings are modelled as lists of characters (`Str`), Python exceptions as
`Except String`, and the process-wide catalog `SOLC_VERSIONS` as an explicit
list parameter.  File input is modelled as the list of the file's lines.
-/

/-- Python strings, modelled as character lists. -/
abbrev Str := List Char

/-- Coercion from Lean string literals into the character-list model. -/
def strL (s : String) : Str := s.toList

/-- Model of `SolidityVersion` (pysolc.py line 73): a `StrictVersion` restricted
to its numeric `(major, minor, patch)` tuple.  The pre-release suffix that
`StrictVersion` can carry never occurs in this program: every version reaching
this type is built from a purely numeric string. -/
structure SolidityVersion where
  major : Nat
  minor : Nat
  patch : Nat
deriving DecidableEq

/-- StrictVersion `<`: lexicographic comparison of the version tuples, as
Python compares the 3-tuples `self.version < other.version`. -/
def verLt (a b : SolidityVersion) : Bool :=
  decide (a.major < b.major ∨ (a.major = b.major ∧
    (a.minor < b.minor ∨ (a.minor = b.minor ∧ a.patch < b.patch))))

/-- StrictVersion `<=` as the negation of the (total) strict order. -/
def verLe (a b : SolidityVersion) : Bool := !verLt b a

/-- Model of `SolidityVersion.__xor__` (lines 77-79): candidate `^` requirement
holds when `self.version[0] == other.version[0]` and
`self.version[1:] >= other.version[1:]` (tuple order on the (minor, patch)
pairs). -/
def verXor (a b : SolidityVersion) : Bool :=
  a.major == b.major &&
    !decide (a.minor < b.minor ∨ (a.minor = b.minor ∧ a.patch < b.patch))

/-- Decimal rendering, fuelled so that it reduces by computation; the fuel
`n + 1` always suffices because the argument at least halves each step. -/
def natStrAux : Nat → Nat → Str
  | 0, _ => []
  | fuel + 1, n =>
    if n < 10 then [Char.ofNat (48 + n)]
    else natStrAux fuel (n / 10) ++ [Char.ofNat (48 + n % 10)]

/-- Decimal rendering of a natural number, digit characters via their codes. -/
def natStr (n : Nat) : Str := natStrAux (n + 1) n

/-- `StrictVersion.__str__`: the patch component is omitted when it is zero. -/
def strictVersionStr (v : SolidityVersion) : Str :=
  if v.patch = 0 then natStr v.major ++ '.' :: natStr v.minor
  else natStr v.major ++ '.' :: natStr v.minor ++ '.' :: natStr v.patch

/-- Model of `SolidityVersion.__str__` (lines 81-86): take the StrictVersion
rendering and append ".0" when it has at most 3 characters. -/
def solidityVersionStr (v : SolidityVersion) : Str :=
  let s := strictVersionStr v
  if s.length ≤ 3 then s ++ ['.', '0'] else s

/-- Numeric value of a digit string (the string is assumed checked). -/
def digitsToNat (s : Str) : Nat :=
  s.foldl (fun n c => n * 10 + (c.toNat - 48)) 0

/-- Parse a non-empty all-digit string, as `\d+` anchored on the whole part. -/
def parseNatStr (s : Str) : Option Nat :=
  if s ≠ [] ∧ s.all Char.isDigit then some (digitsToNat s) else none

/-- Python `str.split(c)`: split on every occurrence of the separator. -/
def pySplit (c : Char) : Str → List Str
  | [] => [[]]
  | x :: xs =>
    if x = c then [] :: pySplit c xs
    else
      match pySplit c xs with
      | h :: t => (x :: h) :: t
      | [] => [[x]]

/-- Model of the `StrictVersion` constructor on the inputs this program feeds
it: `"a.b"` or `"a.b.c"` with numeric components, a missing patch defaulting
to 0.  The pre-release forms `StrictVersion` would also accept never occur
here. -/
def parseStrictVersion (s : Str) : Option SolidityVersion :=
  match pySplit '.' s with
  | [a, b] => do
    let ma ← parseNatStr a
    let mb ← parseNatStr b
    some ⟨ma, mb, 0⟩
  | [a, b, c] => do
    let ma ← parseNatStr a
    let mb ← parseNatStr b
    let mc ← parseNatStr c
    some ⟨ma, mb, mc⟩
  | _ => none

/-- One step of Python `min`: keep the first minimal element. -/
def minStep (acc y : SolidityVersion) : SolidityVersion :=
  if verLt y acc then y else acc

/-- Python `min` over a list (line 164); `none` models the `ValueError` on an
empty sequence. -/
def pyMin : List SolidityVersion → Option SolidityVersion
  | [] => none
  | x :: xs => some (xs.foldl minStep x)

/-- One step of Python `max`: keep the first maximal element. -/
def maxStep (acc y : SolidityVersion) : SolidityVersion :=
  if verLt acc y then y else acc

/-- Python `max` over a list (line 193); `none` models the `ValueError` on an
empty sequence. -/
def pyMax : List SolidityVersion → Option SolidityVersion
  | [] => none
  | x :: xs => some (xs.foldl maxStep x)

/-- The comparison operators of the `ops` dispatch table (lines 97-104). -/
inductive CompOp
  | gt
  | lt
  | eq
  | ge
  | le
  | caret
deriving DecidableEq

/-- Application `cond.op(v, cond.v)` of an `ops` entry (line 162): `v` is the
candidate catalog version, the second argument the version from the pragma. -/
def applyOp : CompOp → SolidityVersion → SolidityVersion → Bool
  | CompOp.gt, v, w => verLt w v
  | CompOp.lt, v, w => verLt v w
  | CompOp.eq, v, w => v == w
  | CompOp.ge, v, w => !verLt v w
  | CompOp.le, v, w => !verLt w v
  | CompOp.caret, v, w => verXor v w

/-- Greedy `\d+` at the head of the string: value and rest, or `none`. -/
def matchDigits (s : Str) : Option (Nat × Str) :=
  let digs := s.takeWhile Char.isDigit
  if digs.isEmpty then none else some (digitsToNat digs, s.dropWhile Char.isDigit)

/-- Match `\d+\.\d+\.\d+` at the head of the string (the version group of
`comp_version_rex`, line 95); greedy digit runs need no backtracking because
a dot is not a digit. -/
def matchVersionAt (s : Str) : Option (SolidityVersion × Str) := do
  let (a, s1) ← matchDigits s
  match s1 with
  | '.' :: s2 => do
    let (b, s3) ← matchDigits s2
    match s3 with
    | '.' :: s4 => do
      let (c, s5) ← matchDigits s4
      some (⟨a, b, c⟩, s5)
    | _ => none
  | _ => none

/-- The alternatives of the optional operator group of `comp_version_rex`
(line 94) in the regex's alternation order, each paired with its entry in the
`ops` table; the final empty alternative is the group matching nothing, which
`ops` maps to equality. -/
def opAlternatives : List (Str × CompOp) :=
  [(['<'], CompOp.lt), (['>'], CompOp.gt), (['>', '='], CompOp.ge),
   (['<', '='], CompOp.le), (['^'], CompOp.caret), ([], CompOp.eq)]

/-- Backtracking over the operator alternatives: the regex engine commits to
the first alternative after which the version part also matches. -/
def tryAlternatives :
    List (Str × CompOp) → Str → Option ((CompOp × SolidityVersion) × Str)
  | [], _ => none
  | alt :: rest, s =>
    if alt.1.isPrefixOf s then
      match matchVersionAt (s.drop alt.1.length) with
      | some (v, r) => some ((alt.2, v), r)
      | none => tryAlternatives rest s
    else tryAlternatives rest s

/-- Scanning loop of `re.findall`: at each position try a match; on success
record it and continue after the match, otherwise advance one character.
A successful match consumes at least five characters, so fuel equal to the
string length is never exhausted. -/
def findallAux : Nat → Str → List (CompOp × SolidityVersion)
  | 0, _ => []
  | _ + 1, [] => []
  | fuel + 1, c :: rest =>
    match tryAlternatives opAlternatives (c :: rest) with
    | some (cond, r) => cond :: findallAux fuel r
    | none => findallAux fuel rest

/-- Model of `comp_version_rex.findall(l)` (line 158) combined with the map to
`OperatorVersionTuple`s (lines 155-159): the operator group is looked up in
`ops` and the version group parsed into a `SolidityVersion`. -/
def comp_version_rex_findall (s : Str) : List (CompOp × SolidityVersion) :=
  findallAux s.length s

/-- Python substring containment (`pat in s`). -/
def containsSub (pat : Str) : Str → Bool
  | [] => pat.isPrefixOf []
  | c :: rest => pat.isPrefixOf (c :: rest) || containsSub pat rest

/-- Line filter of `parse_version` (line 154): contains "pragma" and does not
contain "experimental". -/
def isEligibleLine (l : Str) : Bool :=
  containsSub (strL ("pragma")) l && !containsSub (strL ("experimental")) l

/-- Model of `fullfills_all_conditions` (lines 161-162): every condition of
the line holds of the candidate version. -/
def fullfills_all_conditions
    (conditions : List (CompOp × SolidityVersion)) (v : SolidityVersion) : Bool :=
  conditions.all (fun cond => applyOp cond.1 v cond.2)

/-- Model of `parse_version` (lines 149-168) on the file's lines, the catalog
`SOLC_VERSIONS` passed explicitly.  The `for` loop returns from its first
eligible line, so only the first such line matters; with no eligible line the
loop's `else` takes `SOLC_VERSIONS[-1]`, whose `IndexError` on an empty
catalog is modelled as an error. -/
def parse_version (lines : List Str) (versions : List SolidityVersion) :
    Except String SolidityVersion :=
  match lines.find? isEligibleLine with
  | some l =>
    match pyMin (versions.filter
        (fullfills_all_conditions (comp_version_rex_findall l))) with
    | some v => Except.ok v
    | none => Except.error ("Conflicting Compiler Requirements")
  | none =>
    match versions.getLast? with
    | some v => Except.ok v
    | none => Except.error ("IndexError: list index out of range")

/-- Left-to-right evaluation of `map(parse_version, files)` as consumed by
`max` (line 193): the first file whose parse raises aborts the whole
computation, exactly as the exception propagates out of Python's lazy `map`. -/
def parse_all_versions (versions : List SolidityVersion) :
    List (List Str) → Except String (List SolidityVersion)
  | [] => Except.ok []
  | f :: fs =>
    match parse_version f versions with
    | Except.error e => Except.error e
    | Except.ok v =>
      match parse_all_versions versions fs with
      | Except.error e => Except.error e
      | Except.ok vs => Except.ok (v :: vs)

/-- Model of the version-resolution slice of `compile_solfiles`
(lines 189-193), the branch taken when no explicit `solc_version` is given:
fail if the refreshed catalog is empty, otherwise take the maximum of the
per-file `parse_version` results.  Installation and invocation of the
compiler binary are external I/O and not modelled. -/
def compile_solfiles (files : List (List Str)) (versions : List SolidityVersion) :
    Except String SolidityVersion :=
  if versions.length = 0 then
    Except.error ("No compiler available. No connection to GitHub?")
  else
    match parse_all_versions versions files with
    | Except.error e => Except.error e
    | Except.ok vs =>
      match pyMax vs with
      | some v => Except.ok v
      | none => Except.error ("ValueError: max() arg is an empty sequence")

/-- MINIMAL_SOLC_VERSION = "0.4.11" (line 39), as the parsed version the code
compares against. -/
def MINIMAL_SOLC_VERSION : SolidityVersion := ⟨0, 4, 11⟩

/-- One release object of the GitHub listing: a tag name `vX.Y.Z` and the
names of its downloadable assets. -/
structure Release where
  tag_name : Str
  assets : List Str

/-- Ascending insertion preserving the order of Python `sorted`. -/
def insertAsc (x : SolidityVersion) : List SolidityVersion → List SolidityVersion
  | [] => [x]
  | y :: ys => if verLt x y then x :: y :: ys else y :: insertAsc x ys

/-- Python `sorted` (line 145), ascending under the StrictVersion order. -/
def pySorted (l : List SolidityVersion) : List SolidityVersion :=
  l.foldr insertAsc []

/-- The release loop of `set_supported_solc_versions` (lines 127-143): parse
each tag, skip versions below the minimum, keep those with a
"solc-static-linux" asset; a malformed tag is a `ValueError` of the
`StrictVersion` constructor. -/
def collectReleases : List Release → Option (List SolidityVersion)
  | [] => some []
  | r :: rs => do
    let v ← parseStrictVersion (r.tag_name.drop 1)
    let rest ← collectReleases rs
    if verLt v MINIMAL_SOLC_VERSION then some rest
    else if r.assets.any (fun a => a == strL ("solc-static-linux")) then
      some (v :: rest)
    else some rest

/-- Model of `set_supported_solc_versions` (lines 114-146).  `fetched` is the
outcome of the GitHub request, `none` standing for a network error;
`installed` the identifiers returned by `get_installed_solc_versions`
(strings `vX.Y.Z`); `_prev` the previous value of the global `SOLC_VERSIONS`,
which the function overwrites without reading.  The result is the new value
of `SOLC_VERSIONS`, or the error a malformed version string would raise. -/
def set_supported_solc_versions (fetched : Option (List Release))
    (installed : List Str) (_prev : List SolidityVersion) :
    Except String (List SolidityVersion) :=
  match fetched with
  | none =>
    match installed.mapM (fun v => parseStrictVersion (v.drop 1)) with
    | some versions =>
      Except.ok (versions.filter (fun v => !verLt v MINIMAL_SOLC_VERSION))
    | none => Except.error ("ValueError: invalid version number")
  | some releases =>
    match collectReleases releases with
    | some versions => Except.ok (pySorted versions)
    | none => Except.error ("ValueError: invalid version number")

/-- `posixpath.join` with two arguments, as used at line 174: an absolute
second argument discards the first. -/
def osPathJoin (a b : Str) : Str :=
  if b.head? = some '/' then b
  else if a = [] ∨ a.getLast? = some '/' then a ++ b
  else a ++ '/' :: b

/-- Model of `complete_remapping` (lines 172-175): split the entry at `=`,
join the path part onto the project directory, and reassemble.  Python's
two-name unpacking of the split raises `ValueError` unless the split has
exactly two parts. -/
def complete_remapping (proj_dir : Str) (remapping : Str) : Except String Str :=
  match pySplit '=' remapping with
  | [name, old_path] => Except.ok (name ++ '=' :: osPathJoin proj_dir old_path)
  | _ => Except.error ("ValueError: unpacking")

/-! ## Order lemmas for the StrictVersion comparison -/

theorem verLe_refl (a : SolidityVersion) : verLe a a = true := by
  simp [verLe, verLt]

theorem verLe_trans {a b c : SolidityVersion}
    (h1 : verLe a b = true) (h2 : verLe b c = true) : verLe a c = true := by
  simp only [verLe, verLt, Bool.not_eq_true', decide_eq_false_iff_not] at *
  omega

theorem verLt_to_le {a b : SolidityVersion} (h : verLt a b = true) :
    verLe a b = true := by
  simp only [verLe, verLt, Bool.not_eq_true', decide_eq_false_iff_not,
    decide_eq_true_eq] at *
  omega

theorem verLt_false_to_le {a b : SolidityVersion} (h : verLt a b = false) :
    verLe b a = true := by
  simp only [verLe, h, Bool.not_false]

/-! ## Python min and max over version lists -/

theorem minStep_le_left (a y : SolidityVersion) : verLe (minStep a y) a = true := by
  unfold minStep
  split
  · next h => exact verLt_to_le h
  · exact verLe_refl a

theorem minStep_le_right (a y : SolidityVersion) : verLe (minStep a y) y = true := by
  unfold minStep
  split
  · exact verLe_refl y
  · next h => exact verLt_false_to_le (Bool.not_eq_true _ ▸ h)

theorem minStep_cases (a y : SolidityVersion) : minStep a y = a ∨ minStep a y = y := by
  unfold minStep
  split
  · exact Or.inr rfl
  · exact Or.inl rfl

theorem foldl_minStep_spec (l : List SolidityVersion) :
    ∀ a : SolidityVersion,
      (l.foldl minStep a = a ∨ l.foldl minStep a ∈ l) ∧
      verLe (l.foldl minStep a) a = true ∧
      ∀ x ∈ l, verLe (l.foldl minStep a) x = true := by
  induction l with
  | nil =>
    intro a
    exact ⟨Or.inl rfl, verLe_refl a, by intro x hx; cases hx⟩
  | cons y t ih =>
    intro a
    have h := ih (minStep a y)
    rw [List.foldl_cons]
    refine ⟨?_, ?_, ?_⟩
    · rcases h.1 with he | hm
      · rcases minStep_cases a y with h1 | h1
        · exact Or.inl (he.trans h1)
        · exact Or.inr (by rw [he, h1]; exact List.mem_cons_self _ _)
      · exact Or.inr (List.mem_cons_of_mem _ hm)
    · exact verLe_trans h.2.1 (minStep_le_left a y)
    · intro x hx
      rcases List.mem_cons.mp hx with rfl | hx
      · exact verLe_trans h.2.1 (minStep_le_right a x)
      · exact h.2.2 x hx

theorem pyMin_spec {l : List SolidityVersion} {m : SolidityVersion}
    (h : pyMin l = some m) : m ∈ l ∧ ∀ x ∈ l, verLe m x = true := by
  cases l with
  | nil => cases h
  | cons x t =>
    have hm : t.foldl minStep x = m := by
      simpa [pyMin] using h
    have hs := foldl_minStep_spec t x
    rw [hm] at hs
    refine ⟨?_, ?_⟩
    · rcases hs.1 with he | hmem
      · rw [← he]; exact List.mem_cons_self _ _
      · exact List.mem_cons_of_mem _ hmem
    · intro v hv
      rcases List.mem_cons.mp hv with rfl | hv
      · exact hs.2.1
      · exact hs.2.2 v hv

theorem maxStep_ge_left (a y : SolidityVersion) : verLe a (maxStep a y) = true := by
  unfold maxStep
  split
  · next h => exact verLt_to_le h
  · exact verLe_refl a

theorem maxStep_ge_right (a y : SolidityVersion) : verLe y (maxStep a y) = true := by
  unfold maxStep
  split
  · exact verLe_refl y
  · next h => exact verLt_false_to_le (Bool.not_eq_true _ ▸ h)

theorem maxStep_cases (a y : SolidityVersion) : maxStep a y = a ∨ maxStep a y = y := by
  unfold maxStep
  split
  · exact Or.inr rfl
  · exact Or.inl rfl

theorem foldl_maxStep_spec (l : List SolidityVersion) :
    ∀ a : SolidityVersion,
      (l.foldl maxStep a = a ∨ l.foldl maxStep a ∈ l) ∧
      verLe a (l.foldl maxStep a) = true ∧
      ∀ x ∈ l, verLe x (l.foldl maxStep a) = true := by
  induction l with
  | nil =>
    intro a
    exact ⟨Or.inl rfl, verLe_refl a, by intro x hx; cases hx⟩
  | cons y t ih =>
    intro a
    have h := ih (maxStep a y)
    rw [List.foldl_cons]
    refine ⟨?_, ?_, ?_⟩
    · rcases h.1 with he | hm
      · rcases maxStep_cases a y with h1 | h1
        · exact Or.inl (he.trans h1)
        · exact Or.inr (by rw [he, h1]; exact List.mem_cons_self _ _)
      · exact Or.inr (List.mem_cons_of_mem _ hm)
    · exact verLe_trans (maxStep_ge_left a y) h.2.1
    · intro x hx
      rcases List.mem_cons.mp hx with rfl | hx
      · exact verLe_trans (maxStep_ge_right a x) h.2.1
      · exact h.2.2 x hx

theorem pyMax_spec {l : List SolidityVersion} {m : SolidityVersion}
    (h : pyMax l = some m) : m ∈ l ∧ ∀ x ∈ l, verLe x m = true := by
  cases l with
  | nil => cases h
  | cons x t =>
    have hm : t.foldl maxStep x = m := by
      simpa [pyMax] using h
    have hs := foldl_maxStep_spec t x
    rw [hm] at hs
    refine ⟨?_, ?_⟩
    · rcases hs.1 with he | hmem
      · rw [← he]; exact List.mem_cons_self _ _
      · exact List.mem_cons_of_mem _ hmem
    · intro v hv
      rcases List.mem_cons.mp hv with rfl | hv
      · exact hs.2.1
      · exact hs.2.2 v hv

/-! ## Splitting lemmas for remapping entries -/

theorem pySplit_no_sep {c : Char} : ∀ {s : Str}, c ∉ s → pySplit c s = [s] := by
  intro s
  induction s with
  | nil => intro _; rfl
  | cons x xs ih =>
    intro h
    have hx : ¬ x = c := fun he => h (he ▸ List.mem_cons_self x xs)
    have hxs : c ∉ xs := fun hm => h (List.mem_cons_of_mem x hm)
    unfold pySplit
    rw [if_neg hx, ih hxs]

theorem pySplit_sep {c : Char} :
    ∀ {a : Str}, c ∉ a → ∀ b, pySplit c (a ++ c :: b) = a :: pySplit c b := by
  intro a
  induction a with
  | nil =>
    intro _ b
    show pySplit c (c :: b) = [] :: pySplit c b
    simp [pySplit]
  | cons x xs ih =>
    intro h b
    have hx : ¬ x = c := fun he => h (he ▸ List.mem_cons_self x xs)
    have hxs : c ∉ xs := fun hm => h (List.mem_cons_of_mem x hm)
    show pySplit c (x :: (xs ++ c :: b)) = (x :: xs) :: pySplit c b
    simp only [pySplit, if_neg hx, ih hxs b]

/-- Claim C10: an explicit remapping whose path segment is an absolute path is
returned unchanged by complete_remapping — os.path.join discards the project
root when its second argument is absolute, so the entry is not re-rooted. -/
theorem complete_remapping_absolute (proj_dir name path : Str)
    (hname : '=' ∉ name) (hpath : '=' ∉ path)
    (habs : path.head? = some '/') :
    complete_remapping proj_dir (name ++ '=' :: path) =
      Except.ok (name ++ '=' :: path) := by
  unfold complete_remapping
  rw [pySplit_sep hname path, pySplit_no_sep hpath]
  show Except.ok (name ++ '=' :: osPathJoin proj_dir path) = _
  unfold osPathJoin
  rw [if_pos habs]

theorem complete_remapping_absolute_witness :
    ('=' ∉ strL ("foo")) ∧ ('=' ∉ strL ("/abs/lib")) ∧
    complete_remapping (strL ("/proj")) (strL ("foo") ++ '=' :: strL ("/abs/lib")) =
      Except.ok (strL ("foo") ++ '=' :: strL ("/abs/lib")) :=
  ⟨by decide, by decide,
    complete_remapping_absolute (strL ("/proj")) (strL ("foo")) (strL ("/abs/lib"))
      (by decide) (by decide) (by decide)⟩

/-- Claim C3: the caret-compatibility relation candidate ^ requirement holds
iff the two versions share the major component and the candidate's
(minor, patch) pair is lexicographically at least the requirement's. -/
theorem verXor_spec (a b : SolidityVersion) :
    verXor a b = true ↔
      (a.major = b.major ∧
        (b.minor < a.minor ∨ (a.minor = b.minor ∧ b.patch ≤ a.patch))) := by
  simp only [verXor, Bool.and_eq_true, beq_iff_eq, Bool.not_eq_true',
    decide_eq_false_iff_not]
  omega

/-- Claim C7: parsing the version string "0.5" yields the version (0, 5, 0)
and rendering it back to a string yields "0.5.0". -/
theorem version_roundtrip_zero_five :
    parseStrictVersion (strL ("0.5")) = some ⟨0, 5, 0⟩ ∧
    solidityVersionStr ⟨0, 5, 0⟩ = strL ("0.5.0") := by
  exact ⟨by decide, by decide⟩

/-- Claim C9: for a version with zero patch whose rendered major.minor string
is longer than 3 characters, __str__ omits the ".0" patch component and
returns just the major.minor string. -/
theorem solidityVersionStr_omits_zero_patch (a b : Nat)
    (h : 3 < (natStr a ++ '.' :: natStr b).length) :
    solidityVersionStr ⟨a, b, 0⟩ = natStr a ++ '.' :: natStr b := by
  have hs : strictVersionStr ⟨a, b, 0⟩ = natStr a ++ '.' :: natStr b := by
    simp [strictVersionStr]
  simp only [solidityVersionStr, hs]
  rw [if_neg (by omega)]

theorem solidityVersionStr_omits_zero_patch_witness :
    (3 < (natStr 0 ++ '.' :: natStr 10).length) ∧
    solidityVersionStr ⟨0, 10, 0⟩ = natStr 0 ++ '.' :: natStr 10 ∧
    natStr 0 ++ '.' :: natStr 10 = strL ("0.10") :=
  ⟨by decide, solidityVersionStr_omits_zero_patch 0 10 (by decide), by decide⟩

/-! ## Per-file resolution: parse_version -/

/-- Claim C1: when the first eligible pragma line declares at least one
constraint, parse_version returns the minimum version of the catalog
satisfying all of that line's constraints (least element under the
StrictVersion order among the satisfying catalog versions). -/
theorem parse_version_min_satisfying
    (lines : List Str) (versions : List SolidityVersion) (l : Str)
    (w : SolidityVersion)
    (hline : lines.find? isEligibleLine = some l)
    (_hconds : comp_version_rex_findall l ≠ [])
    (hw : w ∈ versions)
    (hsat : fullfills_all_conditions (comp_version_rex_findall l) w = true) :
    ∃ r, parse_version lines versions = Except.ok r ∧
      r ∈ versions ∧
      fullfills_all_conditions (comp_version_rex_findall l) r = true ∧
      ∀ v ∈ versions,
        fullfills_all_conditions (comp_version_rex_findall l) v = true →
          verLe r v = true := by
  have hmem : w ∈ versions.filter
      (fullfills_all_conditions (comp_version_rex_findall l)) :=
    List.mem_filter.mpr ⟨hw, hsat⟩
  obtain ⟨m, hm⟩ : ∃ m, pyMin (versions.filter
      (fullfills_all_conditions (comp_version_rex_findall l))) = some m := by
    cases hfl : versions.filter
        (fullfills_all_conditions (comp_version_rex_findall l)) with
    | nil => rw [hfl] at hmem; cases hmem
    | cons x t => exact ⟨t.foldl minStep x, by simp [pyMin]⟩
  have hspec := pyMin_spec hm
  refine ⟨m, ?_, ?_, ?_, ?_⟩
  · simp only [parse_version, hline, hm]
  · exact (List.mem_filter.mp hspec.1).1
  · exact (List.mem_filter.mp hspec.1).2
  · intro v hv hvs
    exact hspec.2 v (List.mem_filter.mpr ⟨hv, hvs⟩)

theorem parse_version_min_satisfying_witness :
    parse_version [strL ("pragma solidity >=0.4.24 <0.6.0;")]
        [⟨0, 4, 11⟩, ⟨0, 4, 24⟩, ⟨0, 4, 25⟩, ⟨0, 6, 0⟩, ⟨0, 6, 1⟩] =
      Except.ok ⟨0, 4, 24⟩ ∧
    (∃ r, parse_version [strL ("pragma solidity >=0.4.24 <0.6.0;")]
        [⟨0, 4, 11⟩, ⟨0, 4, 24⟩, ⟨0, 4, 25⟩, ⟨0, 6, 0⟩, ⟨0, 6, 1⟩] =
          Except.ok r ∧
      r ∈ [⟨0, 4, 11⟩, ⟨0, 4, 24⟩, ⟨0, 4, 25⟩, ⟨0, 6, 0⟩, ⟨0, 6, 1⟩] ∧
      fullfills_all_conditions
        (comp_version_rex_findall (strL ("pragma solidity >=0.4.24 <0.6.0;")))
        r = true ∧
      ∀ v ∈ [(⟨0, 4, 11⟩ : SolidityVersion), ⟨0, 4, 24⟩, ⟨0, 4, 25⟩,
          ⟨0, 6, 0⟩, ⟨0, 6, 1⟩],
        fullfills_all_conditions
          (comp_version_rex_findall (strL ("pragma solidity >=0.4.24 <0.6.0;")))
          v = true →
          verLe r v = true) :=
  ⟨rfl,
    parse_version_min_satisfying
      [strL ("pragma solidity >=0.4.24 <0.6.0;")]
      [⟨0, 4, 11⟩, ⟨0, 4, 24⟩, ⟨0, 4, 25⟩, ⟨0, 6, 0⟩, ⟨0, 6, 1⟩]
      (strL ("pragma solidity >=0.4.24 <0.6.0;")) ⟨0, 4, 24⟩
      (by decide) (by decide) (by decide) (by decide)⟩

/-- Claim C8: when the first eligible pragma line contains no substring
matching the operator-version pattern, the empty condition list is vacuously
satisfied by every catalog version, so the per-file result is the minimum of
the non-empty catalog. -/
theorem parse_version_empty_conditions_min
    (lines : List Str) (versions : List SolidityVersion) (l : Str)
    (hline : lines.find? isEligibleLine = some l)
    (hnone : comp_version_rex_findall l = [])
    (hne : versions ≠ []) :
    ∃ m, parse_version lines versions = Except.ok m ∧ m ∈ versions ∧
      ∀ v ∈ versions, verLe m v = true := by
  have hfl : versions.filter
      (fullfills_all_conditions (comp_version_rex_findall l)) = versions := by
    rw [hnone]
    exact List.filter_eq_self.mpr (fun a _ => rfl)
  obtain ⟨x, t, rfl⟩ : ∃ x t, versions = x :: t := by
    cases versions with
    | nil => exact absurd rfl hne
    | cons x t => exact ⟨x, t, rfl⟩
  have hm : pyMin ((x :: t).filter
      (fullfills_all_conditions (comp_version_rex_findall l))) =
      some (t.foldl minStep x) := by
    rw [hfl]
    simp [pyMin]
  have hspec := pyMin_spec hm
  rw [hfl] at hspec
  refine ⟨t.foldl minStep x, ?_, hspec.1, hspec.2⟩
  simp only [parse_version, hline, hm]

theorem parse_version_empty_conditions_min_witness :
    ∃ m, parse_version [strL ("pragma solidity;")] [⟨0, 6, 1⟩, ⟨0, 4, 11⟩, ⟨0, 5, 0⟩] =
        Except.ok m ∧
      m ∈ [(⟨0, 6, 1⟩ : SolidityVersion), ⟨0, 4, 11⟩, ⟨0, 5, 0⟩] ∧
      ∀ v ∈ [(⟨0, 6, 1⟩ : SolidityVersion), ⟨0, 4, 11⟩, ⟨0, 5, 0⟩],
        verLe m v = true :=
  parse_version_empty_conditions_min [strL ("pragma solidity;")]
    [⟨0, 6, 1⟩, ⟨0, 4, 11⟩, ⟨0, 5, 0⟩] (strL ("pragma solidity;"))
    (by decide) (by decide) (by decide)

/-! ## Project-wide resolution: compile_solfiles -/

theorem parse_all_versions_cons_shape {versions : List SolidityVersion}
    {f : List Str} {fs : List (List Str)} {vs : List SolidityVersion}
    (h : parse_all_versions versions (f :: fs) = Except.ok vs) :
    ∃ v vrest, vs = v :: vrest := by
  cases hp : parse_version f versions with
  | error e =>
    simp only [parse_all_versions, hp] at h
    exact Except.noConfusion h
  | ok v =>
    cases hr : parse_all_versions versions fs with
    | error e =>
      simp only [parse_all_versions, hp, hr] at h
      exact Except.noConfusion h
    | ok vrest =>
      simp only [parse_all_versions, hp, hr] at h
      injection h with h2
      exact ⟨v, vrest, h2.symm⟩

/-- Claim C2: with a non-empty file list, a populated catalog and every file
parsing to its preferred version, compile_solfiles resolves to the maximum of
the per-file preferred versions. -/
theorem compile_solfiles_max_of_minimums
    (files : List (List Str)) (versions vs : List SolidityVersion)
    (hne : files ≠ []) (hcat : versions ≠ [])
    (hparse : parse_all_versions versions files = Except.ok vs) :
    ∃ r, compile_solfiles files versions = Except.ok r ∧ r ∈ vs ∧
      ∀ v ∈ vs, verLe v r = true := by
  have hlen : ¬ versions.length = 0 := fun h => hcat (List.length_eq_zero.mp h)
  obtain ⟨x, t, rfl⟩ : ∃ x t, vs = x :: t := by
    cases files with
    | nil => exact absurd rfl hne
    | cons f fs => exact parse_all_versions_cons_shape hparse
  have hmax : pyMax (x :: t) = some (t.foldl maxStep x) := by
    simp [pyMax]
  have hspec := pyMax_spec hmax
  refine ⟨t.foldl maxStep x, ?_, hspec.1, hspec.2⟩
  simp only [compile_solfiles, if_neg hlen, hparse, hmax]

theorem compile_solfiles_max_of_minimums_witness :
    parse_all_versions [⟨0, 4, 11⟩, ⟨0, 4, 24⟩, ⟨0, 4, 25⟩, ⟨0, 5, 0⟩, ⟨0, 6, 0⟩]
        [[strL ("pragma solidity >=0.4.24 <0.6.0;")],
         [strL ("pragma solidity ^0.5.0;")]] =
      Except.ok [⟨0, 4, 24⟩, ⟨0, 5, 0⟩] ∧
    compile_solfiles
        [[strL ("pragma solidity >=0.4.24 <0.6.0;")],
         [strL ("pragma solidity ^0.5.0;")]]
        [⟨0, 4, 11⟩, ⟨0, 4, 24⟩, ⟨0, 4, 25⟩, ⟨0, 5, 0⟩, ⟨0, 6, 0⟩] =
      Except.ok ⟨0, 5, 0⟩ ∧
    (∃ r, compile_solfiles
        [[strL ("pragma solidity >=0.4.24 <0.6.0;")],
         [strL ("pragma solidity ^0.5.0;")]]
        [⟨0, 4, 11⟩, ⟨0, 4, 24⟩, ⟨0, 4, 25⟩, ⟨0, 5, 0⟩, ⟨0, 6, 0⟩] =
          Except.ok r ∧
      r ∈ [(⟨0, 4, 24⟩ : SolidityVersion), ⟨0, 5, 0⟩] ∧
      ∀ v ∈ [(⟨0, 4, 24⟩ : SolidityVersion), ⟨0, 5, 0⟩], verLe v r = true) :=
  ⟨rfl, rfl,
    compile_solfiles_max_of_minimums
      [[strL ("pragma solidity >=0.4.24 <0.6.0;")],
       [strL ("pragma solidity ^0.5.0;")]]
      [⟨0, 4, 11⟩, ⟨0, 4, 24⟩, ⟨0, 4, 25⟩, ⟨0, 5, 0⟩, ⟨0, 6, 0⟩]
      [⟨0, 4, 24⟩, ⟨0, 5, 0⟩]
      (by decide) (by decide) rfl⟩

theorem getLast?_some_of_ne_nil {l : List SolidityVersion} (h : l ≠ []) :
    ∃ y, l.getLast? = some y := by
  cases hl : l.getLast? with
  | some y => exact ⟨y, rfl⟩
  | none =>
    cases l with
    | nil => exact absurd rfl h
    | cons a t => exact absurd hl (by simp)

theorem parse_version_error_is_conflict
    {f : List Str} {versions : List SolidityVersion} (hcat : versions ≠ [])
    {e : String} (h : parse_version f versions = Except.error e) :
    e = "Conflicting Compiler Requirements" := by
  cases hf : f.find? isEligibleLine with
  | some l =>
    cases hm : pyMin (versions.filter
        (fullfills_all_conditions (comp_version_rex_findall l))) with
    | some v =>
      simp only [parse_version, hf, hm] at h
      exact Except.noConfusion h
    | none =>
      simp only [parse_version, hf, hm] at h
      injection h with h2
      exact h2.symm
  | none =>
    obtain ⟨y, hy⟩ := getLast?_some_of_ne_nil hcat
    simp only [parse_version, hf, hy] at h
    exact Except.noConfusion h

theorem parse_all_versions_error_of_mem
    {versions : List SolidityVersion} {f : List Str} {msg : String}
    (hferr : parse_version f versions = Except.error msg) :
    ∀ {files : List (List Str)}, f ∈ files →
      ∃ e, parse_all_versions versions files = Except.error e := by
  intro files
  induction files with
  | nil => intro hf; cases hf
  | cons g fs ih =>
    intro hf
    cases hpg : parse_version g versions with
    | error e => exact ⟨e, by simp only [parse_all_versions, hpg]⟩
    | ok v =>
      rcases List.mem_cons.mp hf with rfl | hmem
      · rw [hferr] at hpg
        exact Except.noConfusion hpg
      · obtain ⟨e, he⟩ := ih hmem
        exact ⟨e, by simp only [parse_all_versions, hpg, he]⟩

theorem parse_all_versions_error_is_conflict
    {versions : List SolidityVersion} (hcat : versions ≠ []) :
    ∀ {files : List (List Str)} {e : String},
      parse_all_versions versions files = Except.error e →
      e = "Conflicting Compiler Requirements" := by
  intro files
  induction files with
  | nil =>
    intro e h
    simp only [parse_all_versions] at h
    exact Except.noConfusion h
  | cons g fs ih =>
    intro e h
    cases hpg : parse_version g versions with
    | error e2 =>
      simp only [parse_all_versions, hpg] at h
      injection h with h2
      exact h2 ▸ parse_version_error_is_conflict hcat hpg
    | ok v =>
      cases hr : parse_all_versions versions fs with
      | error e2 =>
        simp only [parse_all_versions, hpg, hr] at h
        injection h with h2
        exact h2 ▸ ih hr
      | ok vs =>
        simp only [parse_all_versions, hpg, hr] at h
        exact Except.noConfusion h

/-- Claim C4: when some file's constraint set is satisfied by no catalog
version, resolution raises the CompilerVersionNotSupported error with the
"Conflicting Compiler Requirements" condition: the per-file conflict aborts
resolution, so no project-wide maximum is ever produced. -/
theorem compile_solfiles_conflict
    (files : List (List Str)) (versions : List SolidityVersion)
    (f : List Str) (l : Str)
    (hcat : versions ≠ [])
    (hf : f ∈ files)
    (hline : f.find? isEligibleLine = some l)
    (hempty : versions.filter
        (fullfills_all_conditions (comp_version_rex_findall l)) = []) :
    compile_solfiles files versions =
      Except.error ("Conflicting Compiler Requirements") := by
  have hlen : ¬ versions.length = 0 := fun h => hcat (List.length_eq_zero.mp h)
  have hferr : parse_version f versions =
      Except.error ("Conflicting Compiler Requirements") := by
    simp only [parse_version, hline, hempty, pyMin]
  obtain ⟨e, he⟩ := parse_all_versions_error_of_mem hferr hf
  have hmsg := parse_all_versions_error_is_conflict hcat he
  simp only [compile_solfiles, if_neg hlen, he, hmsg]

theorem compile_solfiles_conflict_witness :
    compile_solfiles [[strL ("pragma solidity >=1.0.0;")]]
        [⟨0, 4, 11⟩, ⟨0, 8, 0⟩] =
      Except.error ("Conflicting Compiler Requirements") :=
  compile_solfiles_conflict [[strL ("pragma solidity >=1.0.0;")]]
    [⟨0, 4, 11⟩, ⟨0, 8, 0⟩] [strL ("pragma solidity >=1.0.0;")]
    (strL ("pragma solidity >=1.0.0;"))
    (by decide) (by decide) (by decide) (by decide)

/-! ## Catalog refresh and the no-pragma fallback -/

/-- Claim C5 fails as stated: a catalog built by the offline fallback keeps
the installed-enumeration order, and a file containing no version-declaration
line resolves to the LAST catalog entry, which here is not the maximum — the
catalog holds 0.5.0 before 0.4.24, resolution returns 0.4.24 while 0.5.0 is a
strictly larger catalog member. -/
theorem parse_version_fallback_not_max_cex :
    set_supported_solc_versions none [strL ("v0.5.0"), strL ("v0.4.24")] [] =
      Except.ok [⟨0, 5, 0⟩, ⟨0, 4, 24⟩] ∧
    parse_version [] [⟨0, 5, 0⟩, ⟨0, 4, 24⟩] = Except.ok ⟨0, 4, 24⟩ ∧
    (⟨0, 5, 0⟩ : SolidityVersion) ∈
      [(⟨0, 5, 0⟩ : SolidityVersion), ⟨0, 4, 24⟩] ∧
    verLt ⟨0, 4, 24⟩ ⟨0, 5, 0⟩ = true :=
  ⟨rfl, rfl, by decide, by decide⟩

/-- Ascending order of a version list, checked pairwise along the list. -/
def isAscending : List SolidityVersion → Bool
  | [] => true
  | [_] => true
  | x :: y :: t => verLe x y && isAscending (y :: t)

theorem isAscending_getLast_max :
    ∀ (l : List SolidityVersion), isAscending l = true →
      ∀ m, l.getLast? = some m → m ∈ l ∧ ∀ v ∈ l, verLe v m = true := by
  intro l
  induction l with
  | nil => intro _ m hm; cases hm
  | cons x t ih =>
    intro hasc m hm
    cases t with
    | nil =>
      rw [List.getLast?_singleton] at hm
      injection hm with h2
      subst h2
      refine ⟨List.mem_cons_self _ _, ?_⟩
      intro v hv
      rcases List.mem_cons.mp hv with rfl | hv
      · exact verLe_refl v
      · cases hv
    | cons y t2 =>
      have hxy : verLe x y = true ∧ isAscending (y :: t2) = true := by
        simp only [isAscending, Bool.and_eq_true] at hasc
        exact hasc
      rw [List.getLast?_cons_cons] at hm
      have hrec := ih hxy.2 m hm
      refine ⟨List.mem_cons_of_mem _ hrec.1, ?_⟩
      intro v hv
      rcases List.mem_cons.mp hv with rfl | hv
      · exact verLe_trans hxy.1 (hrec.2 y (List.mem_cons_self _ _))
      · exact hrec.2 v hv

/-- Claim C5 (amended): a file containing no version-declaration line resolves
to the LAST version of the non-empty catalog — when the catalog is in
ascending order (as remote-built catalogs are, being sorted) this is the
maximum; the offline fallback preserves the installed-enumeration order, so
there it is the maximum only if that enumeration is ascending. -/
theorem parse_version_no_pragma_resolves_last
    (lines : List Str) (versions : List SolidityVersion)
    (hno : lines.find? isEligibleLine = none)
    (hne : versions ≠ [])
    (hasc : isAscending versions = true) :
    ∃ m, parse_version lines versions = Except.ok m ∧
      versions.getLast? = some m ∧ m ∈ versions ∧
      ∀ v ∈ versions, verLe v m = true := by
  obtain ⟨m, hm⟩ := getLast?_some_of_ne_nil hne
  have hspec := isAscending_getLast_max versions hasc m hm
  exact ⟨m, by simp only [parse_version, hno, hm], hm, hspec.1, hspec.2⟩

theorem parse_version_no_pragma_resolves_last_witness :
    parse_version [strL ("contract C")] [⟨0, 4, 11⟩, ⟨0, 5, 0⟩] =
      Except.ok ⟨0, 5, 0⟩ ∧
    (∃ m, parse_version [strL ("contract C")] [⟨0, 4, 11⟩, ⟨0, 5, 0⟩] =
        Except.ok m ∧
      ([(⟨0, 4, 11⟩ : SolidityVersion), ⟨0, 5, 0⟩]).getLast? = some m ∧
      m ∈ [(⟨0, 4, 11⟩ : SolidityVersion), ⟨0, 5, 0⟩] ∧
      ∀ v ∈ [(⟨0, 4, 11⟩ : SolidityVersion), ⟨0, 5, 0⟩], verLe v m = true) :=
  ⟨rfl, parse_version_no_pragma_resolves_last [strL ("contract C")]
    [⟨0, 4, 11⟩, ⟨0, 5, 0⟩] (by decide) (by decide) (by decide)⟩

theorem isAscending_insertAsc (x : SolidityVersion) :
    ∀ (l : List SolidityVersion), isAscending l = true →
      isAscending (insertAsc x l) = true := by
  intro l
  induction l with
  | nil => intro _; rfl
  | cons y t ih =>
    intro h
    by_cases hxy : verLt x y = true
    · simp only [insertAsc, if_pos hxy, isAscending, Bool.and_eq_true]
      exact ⟨verLt_to_le hxy, h⟩
    · have hxyf : verLt x y = false := by
        revert hxy
        cases verLt x y <;> simp
      have hyx : verLe y x = true := verLt_false_to_le hxyf
      cases t with
      | nil =>
        simp only [insertAsc, if_neg hxy, isAscending, Bool.and_eq_true]
        exact ⟨hyx, trivial⟩
      | cons z t2 =>
        have h2 : verLe y z = true ∧ isAscending (z :: t2) = true := by
          simp only [isAscending, Bool.and_eq_true] at h
          exact h
        have hrec := ih h2.2
        by_cases hxz : verLt x z = true
        · simp only [insertAsc, if_neg hxy, if_pos hxz, isAscending,
            Bool.and_eq_true]
          exact ⟨hyx, verLt_to_le hxz, h2.2⟩
        · have heq : insertAsc x (z :: t2) = z :: insertAsc x t2 := by
            simp only [insertAsc, if_neg hxz]
          simp only [insertAsc, if_neg hxy, if_neg hxz, isAscending,
            Bool.and_eq_true]
          refine ⟨h2.1, ?_⟩
          rw [heq] at hrec
          exact hrec

theorem pySorted_ascending (l : List SolidityVersion) :
    isAscending (pySorted l) = true := by
  unfold pySorted
  induction l with
  | nil => rfl
  | cons x t ih =>
    rw [List.foldr_cons]
    exact isAscending_insertAsc x _ ih

theorem set_supported_online_ascending
    (releases : List Release) (installed : List Str)
    (prev cat : List SolidityVersion)
    (h : set_supported_solc_versions (some releases) installed prev =
      Except.ok cat) :
    isAscending cat = true := by
  cases hc : collectReleases releases with
  | some versions =>
    simp only [set_supported_solc_versions, hc] at h
    injection h with h2
    rw [← h2]
    exact pySorted_ascending versions
  | none =>
    simp only [set_supported_solc_versions, hc] at h
    exact Except.noConfusion h

/-- Claim C6: on a network error the catalog refresh does not raise: the new
catalog is exactly the locally-installed versions filtered to those at or
above the minimum supported version, independent of the previous catalog —
the result never mentions `prev`, so no merging with a stale catalog can
occur. -/
theorem set_supported_offline_replaces
    (installed : List Str) (prev : List SolidityVersion)
    (vs : List SolidityVersion)
    (hparse : installed.mapM (fun s => parseStrictVersion (s.drop 1)) = some vs) :
    set_supported_solc_versions none installed prev =
      Except.ok (vs.filter (fun v => !verLt v MINIMAL_SOLC_VERSION)) := by
  simp only [set_supported_solc_versions, hparse]

theorem set_supported_offline_replaces_witness :
    set_supported_solc_versions none
        [strL ("v0.4.24"), strL ("v0.6.1"), strL ("v0.4.5")] [⟨9, 9, 9⟩] =
      Except.ok [⟨0, 4, 24⟩, ⟨0, 6, 1⟩] ∧
    set_supported_solc_versions none
        [strL ("v0.4.24"), strL ("v0.6.1"), strL ("v0.4.5")] [⟨9, 9, 9⟩] =
      Except.ok (([⟨0, 4, 24⟩, ⟨0, 6, 1⟩, ⟨0, 4, 5⟩] :
          List SolidityVersion).filter
        (fun v => !verLt v MINIMAL_SOLC_VERSION)) :=
  ⟨rfl, set_supported_offline_replaces
    [strL ("v0.4.24"), strL ("v0.6.1"), strL ("v0.4.5")] [⟨9, 9, 9⟩]
    [⟨0, 4, 24⟩, ⟨0, 6, 1⟩, ⟨0, 4, 5⟩] rfl⟩
